import Mathlib

/-!
Verification of the merge-fusion and retrieval-augmented context subsystem of
the chat-merge application.

The repository sources contain the frontend TypeScript (api.ts, store.ts,
components) and the design documents describing the backend.  The backend
Python services (`vector_service.py`, `merge_service.py`,
`completion_service.py`) are not among the sources, so the fusion engine, the
merge orchestrator and the RAG context builder are modelled from the
specification; the frontend functions (`streamFetch`, `toggleMergeSelect`,
`startMerge`) are embedded from the TypeScript sources directly.
-/

/-- Embedding vector: a list of rational coordinates.  The spec fixes a
deployment-wide dimension D; none of the verified properties depend on it. -/
abbrev Vec := List ℚ

/-- Record kind: carried over unchanged (`kept`) or produced by fusing two
semantically close records (`fused`). -/
inductive RKind
  | kept
  | fused
deriving DecidableEq

/-- Modelled from the spec: the `VectorRecord` of §3 (Data Model).  The
backend module `vector_service.py` is absent from the sources, so the record
shape follows the spec: id, embedding, content, kind, and the optional pair
of source ids for fused records. -/
structure VRec where
  rid : String
  emb : Vec
  content : String
  kind : RKind
  fusedFrom : Option (String × String)
deriving DecidableEq

/-- Modelled from the spec: the nearest-neighbour search of §4.3 step 2a over
the still-matchable base records.  Returns the position, the record and the
similarity of the first record attaining the maximal similarity to `w`
(ties broken towards the earlier record: a single fixed deterministic
order, as §4.3 requires).  `none` exactly on an empty candidate list. -/
def bestIdx (sim : Vec → Vec → ℚ) (w : Vec) : List VRec → Option (ℕ × VRec × ℚ)
  | [] => none
  | r :: rest =>
    match bestIdx sim w rest with
    | none => some (0, r, sim w r.emb)
    | some (j, r', s) =>
      if sim w r.emb < s then some (j + 1, r', s) else some (0, r, sim w r.emb)

/-- Modelled from the spec: §4.3 step 2c — an incoming vector appended
unchanged, marked `kept`; a kept record carries no `fusedFrom`. -/
def mkKept (w : VRec) : VRec :=
  { w with kind := RKind.kept, fusedFrom := none }

/-- Modelled from the spec: §4.3 step 2b — the fused record replacing a
consumed base record: combined embedding (`normalize((nn + w) / 2)` in the
spec; the combination function is a parameter here), both contents labelled
by origin, `kind = fused` and `fusedFrom = (base.id, incoming.id)`.  The spec
leaves the fresh record id unspecified; it is derived deterministically from
the two source ids. -/
def mkFused (comb : Vec → Vec → Vec) (base w : VRec) : VRec :=
  { rid := base.rid ++ "+" ++ w.rid,
    emb := comb base.emb w.emb,
    content := "[A]: " ++ base.content ++ "\n" ++ "[B]: " ++ w.content,
    kind := RKind.fused,
    fusedFrom := some (base.rid, w.rid) }

/-- Fusion-pass state: the base records not yet consumed (still matchable)
and the records already produced by the pass (fused replacements and appended
incoming records).  Per the consume-once rule of §4.3 — and forced by the
spec's own size bound `max(|A|,|B|) <= |fused|` — produced records never take
part in later matching. -/
structure FState where
  avail : List VRec
  produced : List VRec
deriving DecidableEq

/-- Modelled from the spec: one iteration of §4.3 step 2 for an incoming
vector `w`: find the nearest still-matchable base record; at or above the
threshold consume it and produce the fused record, otherwise append `w`
unchanged (also when no matchable record remains). -/
def fuseStep (sim : Vec → Vec → ℚ) (comb : Vec → Vec → Vec) (t : ℚ)
    (st : FState) (w : VRec) : FState :=
  match bestIdx sim w.emb st.avail with
  | none => { st with produced := st.produced ++ [mkKept w] }
  | some (j, base, s) =>
    if t ≤ s then
      { avail := st.avail.eraseIdx j,
        produced := st.produced ++ [mkFused comb base w] }
    else
      { st with produced := st.produced ++ [mkKept w] }

/-- Modelled from the spec: §4.3 `fuse_namespaces` — fold the incoming
namespace `B` in its fixed retrieval order over the base namespace `A`.  The
vector set upserted into the target namespace is the still-unconsumed base
records together with everything the pass produced. -/
def fuse (sim : Vec → Vec → ℚ) (comb : Vec → Vec → Vec) (t : ℚ)
    (A B : List VRec) : List VRec :=
  let st := B.foldl (fuseStep sim comb t) ⟨A, []⟩
  st.avail ++ st.produced

/-- Insert a scored hit into a list sorted by descending score (stable:
equal scores keep earlier hits first). -/
def insertHit (h : VRec × ℚ) : List (VRec × ℚ) → List (VRec × ℚ)
  | [] => [h]
  | x :: xs => if x.2 < h.2 then h :: x :: xs else x :: insertHit h xs

/-- Sort scored hits by descending score. -/
def sortHits : List (VRec × ℚ) → List (VRec × ℚ) :=
  List.foldr insertHit []

/-- Total rendered length of a list of content snippets. -/
def totalLen (l : List String) : ℕ := (l.map String.length).sum

/-- Modelled from the spec: the §4.4 truncation — drop the lowest-scoring
(hindmost) snippets until the block fits the character budget. -/
def fitBudget (budget : ℕ) : List String → List String
  | [] => []
  | s :: rest =>
    if totalLen (s :: rest) ≤ budget then s :: rest
    else fitBudget budget (s :: rest).dropLast
termination_by l => l.length
decreasing_by
  simp [List.length_dropLast]

/-- The newline separator between rendered context snippets. -/
def nlSep : String := "\n"

/-- Modelled from the spec: §4.4 `buildContext` — embed the query, rank the
namespace by descending similarity, keep the top-K hits, render their
contents into one block truncated to the character budget, and hand the
namespace back unchanged (the function mutates no state; state passing makes
that explicit).  On a namespace with zero vectors there are no hits and the
rendered block is the empty string, not an error. -/
def buildContext (embed : String → Vec) (sim : Vec → Vec → ℚ) (ns : List VRec)
    (queryText : String) (topK budget : ℕ) : String × List VRec :=
  let q := embed queryText
  let hits := sortHits (ns.map (fun r => (r, sim q r.emb)))
  let block := fitBudget budget ((hits.take topK).map (fun p => p.1.content))
  (String.intercalate nlSep block, ns)

/-- Failure of a fusion step (index read, similarity computation or upsert),
per §4.3 and §7 of the spec. -/
inductive FuseErr
  | indexUnavailable
  | embeddingFailed
  | upsertFailed
deriving DecidableEq

/-- A human-readable reason string for a fusion failure. -/
def FuseErr.describe : FuseErr → String
  | FuseErr.indexUnavailable => "IndexUnavailable"
  | FuseErr.embeddingFailed => "EmbeddingFailed"
  | FuseErr.upsertFailed => "UpsertFailed"

/-- A transcript turn of a conversation.  `copiedFrom` records the source
conversation a copied turn came from; a turn generated inside the
conversation itself carries `none`. -/
structure Turn where
  role : String
  text : String
  copiedFrom : Option String
deriving DecidableEq

/-- Modelled from the spec: the `Conversation` of §3. -/
structure Conversation where
  cid : String
  isMerged : Bool
  sourceConversationIds : List String
  transcript : List Turn
deriving DecidableEq

/-- Modelled from the spec: the `MergeRecord` of §3 (audit trail). -/
structure MergeRecord where
  sourceConversationIds : List String
  targetConversationId : String
  fusionOutcome : String
deriving DecidableEq

/-- An event of the merge stream (§6): progress, warning, completion or
error. -/
inductive MEvent
  | progress (msg : String)
  | warning (msg : String)
  | complete (conversationId : String)
  | errorEvent (kind : String)
deriving DecidableEq

/-- Terminal state of the merge state machine (§4.5). -/
inductive MState
  | complete
  | failed
deriving DecidableEq

/-- The observable outcome of one merge run: the emitted events, the created
conversation and merge record (none when nothing was created), the vector set
written to the target namespace, and the terminal state. -/
structure MergeResult where
  events : List MEvent
  conversation : Option Conversation
  record : Option MergeRecord
  fusedNamespace : List VRec
  finalState : MState
deriving DecidableEq

/-- Modelled from the spec: the generated introduction turn (§4.5
Summarizing).  On generation failure a templated generic introduction is
substituted; either way the turn is generated, never copied. -/
def introTurn (summaryTry : Except Unit String) : Turn :=
  { role := "assistant",
    text :=
      match summaryTry with
      | Except.ok s => s
      | Except.error _ => "I have merged your selected conversations. Ask me anything from either one.",
    copiedFrom := none }

/-- Modelled from the spec: the merge orchestrator state machine of §4.5 and
the fallback policy of §4.3/§7 (`merge_service.py` is absent from the
sources).  Inputs stand for the interactions with external collaborators: the
outcome of the fusion attempt, of intro generation, and of the recording
step.  Fewer than two distinct sources fail immediately with
`InvalidMergeRequest` and nothing is created; a fusion failure falls back to
the verbatim union `A ++ B` with outcome `fallback-union` and a warning
event; a generation failure substitutes the template with a warning; only a
recording failure is fatal, and it rolls back everything created. -/
def runMerge (sourceIds : List String) (targetId : String) (A B : List VRec)
    (fuseTry : Except FuseErr (List VRec)) (summaryTry : Except Unit String)
    (recordOk : Bool) : MergeResult :=
  if sourceIds.dedup.length < 2 then
    { events := [MEvent.errorEvent ("InvalidMergeRequest")],
      conversation := none,
      record := none,
      fusedNamespace := [],
      finalState := MState.failed }
  else
    let fusionEvents : List MEvent :=
      match fuseTry with
      | Except.ok _ => [MEvent.progress ("fused step 1")]
      | Except.error e =>
          [MEvent.warning ("Smart fusion failed - fell back to simple union merge. Reason: " ++ e.describe)]
    let outcome : String :=
      match fuseTry with
      | Except.ok _ => "fused"
      | Except.error _ => "fallback-union"
    let ns : List VRec :=
      match fuseTry with
      | Except.ok ws => ws
      | Except.error _ => A ++ B
    let sumEvents : List MEvent :=
      match summaryTry with
      | Except.ok _ => []
      | Except.error _ => [MEvent.warning ("Intro generation failed - using a templated introduction")]
    if recordOk then
      { events := fusionEvents ++ sumEvents ++ [MEvent.complete targetId],
        conversation := some
          { cid := targetId,
            isMerged := true,
            sourceConversationIds := sourceIds,
            transcript := [introTurn summaryTry] },
        record := some
          { sourceConversationIds := sourceIds,
            targetConversationId := targetId,
            fusionOutcome := outcome },
        fusedNamespace := ns,
        finalState := MState.complete }
    else
      { events := fusionEvents ++ sumEvents ++ [MEvent.errorEvent ("RecordingFailed")],
        conversation := none,
        record := none,
        fusedNamespace := [],
        finalState := MState.failed }

/-- The six characters of the SSE payload tag of api.ts, `data: `. -/
def dataTag : List Char := String.toList ("data: ")

/-- Split a character stream at newline characters; always one more component
than the number of newlines, the last component being the still-open line.
Mirrors `buffer.split` on newline in `streamFetch`
(frontend/src/api.ts). -/
def splitNl : List Char → List (List Char)
  | [] => [[]]
  | c :: rest =>
    if c = '\n' then [] :: splitNl rest
    else (c :: (splitNl rest).headD []) :: (splitNl rest).tail

/-- The per-line handling of `streamFetch` (frontend/src/api.ts lines 29-38):
a line is yielded iff it starts with the `data: ` tag and its payload parses;
the JSON parser is a parameter (external library call), returning `none` on a
parse error, which the source silently skips. -/
def parseLine (parse : List Char → Option α) (line : List Char) : Option α :=
  if line.take 6 = dataTag then parse (line.drop 6) else none

/-- One reader-loop iteration of `streamFetch` (frontend/src/api.ts lines
21-39): append the chunk to the buffer, split into lines, keep the trailing
partial line as the new buffer and yield the parsed payloads of the complete
lines in order. -/
def feedChunk (parse : List Char → Option α) (st : List α × List Char)
    (chunk : List Char) : List α × List Char :=
  let lines := splitNl (st.2 ++ chunk)
  (st.1 ++ lines.dropLast.filterMap (parseLine parse), lines.getLastD [])

/-- An HTTP response as `streamFetch` observes it: a status code (fetch's
`Response.ok` means status 200-299), a status text, and the body delivered as
a list of chunks. -/
structure HttpResponse where
  status : ℕ
  statusText : String
  body : List (List Char)

/-- fetch's `Response.ok`: the status lies in the 200-299 range. -/
def HttpResponse.ok (r : HttpResponse) : Bool :=
  decide (200 ≤ r.status ∧ r.status < 300)

/-- Concatenation of all body chunks: the stream content as one string. -/
def joinAll : List (List Char) → List Char
  | [] => []
  | c :: r => c ++ joinAll r

/-- The SSE stream reader `streamFetch` of frontend/src/api.ts (lines 5-43):
throw on a non-ok status before reading any of the body; otherwise run the
reader loop over the chunks and return the yielded payloads in order.  The
trailing unterminated line is never processed, as in the source, and nothing
on the content path throws. -/
def streamFetch (parse : List Char → Option α) (resp : HttpResponse) :
    Except String (List α) :=
  if resp.ok then Except.ok (resp.body.foldl (feedChunk parse) ([], [])).1
  else Except.error ("HTTP " ++ toString resp.status ++ ": " ++ resp.statusText)

/-- The merge-selection toggle of frontend/src/store.ts (`toggleMergeSelect`,
lines 295-304): remove every occurrence of the id if it is selected,
otherwise append it at the end. -/
def toggleMergeSelect (chatId : String) (sel : List String) : List String :=
  if chatId ∈ sel then sel.filter (fun x => decide (x ≠ chatId))
  else sel ++ [chatId]

/-- The base-record ids consumed into `fusedFrom` pairs of a vector set (the
first component of each pair is the id of the consumed base record). -/
def fusedSources (l : List VRec) : List String :=
  l.filterMap (fun r => r.fusedFrom.map Prod.fst)

/-- Concrete similarity function used by the witnesses: two vectors score 1
when equal, 0 otherwise (the verified fusion properties hold for every
similarity function). -/
def simTest : Vec → Vec → ℚ := fun a b => if a = b then 1 else 0

/-- Concrete combination function used by the witnesses. -/
def combTest : Vec → Vec → Vec := fun a _ => a

/-- Concrete base record used by the witnesses. -/
def recA : VRec :=
  { rid := "a1", emb := [1], content := "alpha", kind := RKind.kept,
    fusedFrom := none }

/-- Concrete incoming record (same embedding as `recA`) used by the
witnesses. -/
def recB : VRec :=
  { rid := "b1", emb := [1], content := "beta", kind := RKind.kept,
    fusedFrom := none }

/-- Concrete incoming record (embedding unlike `recA`) used by the
witnesses. -/
def recC : VRec :=
  { rid := "b2", emb := [2], content := "gamma", kind := RKind.kept,
    fusedFrom := none }

/-- Concrete payload parser used by the `streamFetch` witness: accepts
exactly the payload `1`. -/
def parseTest : List Char → Option ℕ :=
  fun l => if l = ['1'] then some 1 else none

/-- Concrete HTTP response used by the `streamFetch` witness: an ok status
and an SSE body whose lines are split across chunk boundaries, with one
non-data line and one trailing unterminated line. -/
def respTest : HttpResponse :=
  { status := 200,
    statusText := "OK",
    body := [String.toList ("data: 1\nda"), String.toList ("ta: 1\nx\n"),
      String.toList ("data: 1")] }

/-! ## Basic facts about the fusion pass -/

theorem bestIdx_ne_none (sim : Vec → Vec → ℚ) (w : Vec) (r : VRec)
    (rest : List VRec) : bestIdx sim w (r :: rest) ≠ none := by
  simp only [bestIdx]
  rcases bestIdx sim w rest with _ | ⟨j, r', s⟩
  · simp
  · simp only []
    split <;> simp

theorem bestIdx_getElem (sim : Vec → Vec → ℚ) (w : Vec) :
    ∀ (l : List VRec) (j : ℕ) (r : VRec) (s : ℚ),
      bestIdx sim w l = some (j, r, s) → l[j]? = some r ∧ s = sim w r.emb := by
  intro l
  induction l with
  | nil => intro j r s h; simp [bestIdx] at h
  | cons a rest ih =>
    intro j r s h
    simp only [bestIdx] at h
    rcases hrec : bestIdx sim w rest with _ | ⟨j', r', s'⟩
    · rw [hrec] at h
      simp only [Option.some.injEq, Prod.mk.injEq] at h
      obtain ⟨hj, hr, hs⟩ := h
      subst hj; subst hr; subst hs
      simp
    · rw [hrec] at h
      simp only [] at h
      split at h
      · simp only [Option.some.injEq, Prod.mk.injEq] at h
        obtain ⟨hj, hr, hs⟩ := h
        subst hj; subst hr; subst hs
        have := ih j' r' s' hrec
        simpa using this
      · simp only [Option.some.injEq, Prod.mk.injEq] at h
        obtain ⟨hj, hr, hs⟩ := h
        subst hj; subst hr; subst hs
        simp

theorem bestIdx_max (sim : Vec → Vec → ℚ) (w : Vec) :
    ∀ (l : List VRec) (j : ℕ) (r : VRec) (s : ℚ),
      bestIdx sim w l = some (j, r, s) → ∀ x ∈ l, sim w x.emb ≤ s := by
  intro l
  induction l with
  | nil => intro j r s h; simp [bestIdx] at h
  | cons a rest ih =>
    intro j r s h x hx
    simp only [bestIdx] at h
    rcases hrec : bestIdx sim w rest with _ | ⟨j', r', s'⟩ <;> rw [hrec] at h
    · have hrest : rest = [] := by
        cases rest with
        | nil => rfl
        | cons b bs => exact absurd hrec (bestIdx_ne_none sim w b bs)
      subst hrest
      simp only [Option.some.injEq, Prod.mk.injEq] at h
      obtain ⟨hj, hr, hs⟩ := h
      subst hs
      simp only [List.mem_singleton] at hx
      subst hx
      exact le_refl _
    · simp only [] at h
      by_cases hlt : sim w a.emb < s'
      · rw [if_pos hlt] at h
        simp only [Option.some.injEq, Prod.mk.injEq] at h
        obtain ⟨hj, hr, hs⟩ := h
        subst hs
        rcases List.mem_cons.mp hx with hx | hx
        · subst hx; exact le_of_lt hlt
        · exact ih j' r' s' hrec x hx
      · rw [if_neg hlt] at h
        simp only [Option.some.injEq, Prod.mk.injEq] at h
        obtain ⟨hj, hr, hs⟩ := h
        subst hs
        push_neg at hlt
        rcases List.mem_cons.mp hx with hx | hx
        · subst hx; exact le_refl _
        · exact le_trans (ih j' r' s' hrec x hx) hlt

theorem fuseStep_avail_sublist (sim : Vec → Vec → ℚ) (comb : Vec → Vec → Vec)
    (t : ℚ) (st : FState) (w : VRec) :
    (fuseStep sim comb t st w).avail.Sublist st.avail := by
  unfold fuseStep
  rcases bestIdx sim w.emb st.avail with _ | ⟨j, base, s⟩
  · exact List.Sublist.refl _
  · simp only []
    split
    · exact List.eraseIdx_sublist _ _
    · exact List.Sublist.refl _

theorem fuseStep_avail_length (sim : Vec → Vec → ℚ) (comb : Vec → Vec → Vec)
    (t : ℚ) (st : FState) (w : VRec) :
    st.avail.length ≤ (fuseStep sim comb t st w).avail.length + 1 := by
  unfold fuseStep
  rcases bestIdx sim w.emb st.avail with _ | ⟨j, base, s⟩
  · simp
  · simp only []
    split
    · simp only [List.length_eraseIdx]
      split <;> omega
    · simp

theorem fuseStep_produced_length (sim : Vec → Vec → ℚ) (comb : Vec → Vec → Vec)
    (t : ℚ) (st : FState) (w : VRec) :
    (fuseStep sim comb t st w).produced.length = st.produced.length + 1 := by
  unfold fuseStep
  rcases bestIdx sim w.emb st.avail with _ | ⟨j, base, s⟩
  · simp
  · simp only []
    split <;> simp

theorem foldFuse_avail_sublist (sim : Vec → Vec → ℚ) (comb : Vec → Vec → Vec)
    (t : ℚ) (B : List VRec) :
    ∀ st : FState, (B.foldl (fuseStep sim comb t) st).avail.Sublist st.avail := by
  induction B with
  | nil => intro st; exact List.Sublist.refl _
  | cons w B ih =>
    intro st
    rw [List.foldl_cons]
    exact (ih _).trans (fuseStep_avail_sublist sim comb t st w)

theorem foldFuse_avail_length (sim : Vec → Vec → ℚ) (comb : Vec → Vec → Vec)
    (t : ℚ) (B : List VRec) :
    ∀ st : FState,
      st.avail.length ≤ (B.foldl (fuseStep sim comb t) st).avail.length + B.length := by
  induction B with
  | nil => intro st; simp
  | cons w B ih =>
    intro st
    rw [List.foldl_cons]
    have h1 := fuseStep_avail_length sim comb t st w
    have h2 := ih (fuseStep sim comb t st w)
    simp only [List.length_cons]
    omega

theorem foldFuse_produced_length (sim : Vec → Vec → ℚ) (comb : Vec → Vec → Vec)
    (t : ℚ) (B : List VRec) :
    ∀ st : FState,
      (B.foldl (fuseStep sim comb t) st).produced.length
        = st.produced.length + B.length := by
  induction B with
  | nil => intro st; simp
  | cons w B ih =>
    intro st
    rw [List.foldl_cons, ih]
    rw [fuseStep_produced_length]
    simp only [List.length_cons]
    omega

/-- C1: for every pair of namespaces A and B (and any similarity, combination
and threshold), the fused vector set satisfies
`max(|A|,|B|) <= |fuse(A,B)| <= |A|+|B|`: each incoming vector from B either
replaces exactly one base vector, leaving the size unchanged, or is appended,
growing the size by one. -/
theorem fuse_size_bound (sim : Vec → Vec → ℚ) (comb : Vec → Vec → Vec)
    (t : ℚ) (A B : List VRec) :
    max A.length B.length ≤ (fuse sim comb t A B).length ∧
      (fuse sim comb t A B).length ≤ A.length + B.length := by
  unfold fuse
  have hsub := (foldFuse_avail_sublist sim comb t B ⟨A, []⟩).length_le
  have hlow := foldFuse_avail_length sim comb t B ⟨A, []⟩
  have hprod := foldFuse_produced_length sim comb t B ⟨A, []⟩
  simp only [List.length_append]
  simp only [List.length_nil, zero_add] at hprod ⊢
  rw [hprod]
  simp only [] at hsub hlow
  constructor
  · exact max_le (by omega) (by omega)
  · omega

/-! ## Consume-once: each base record feeds at most one fusedFrom pair -/

theorem fusedSources_append (l1 l2 : List VRec) :
    fusedSources (l1 ++ l2) = fusedSources l1 ++ fusedSources l2 := by
  simp [fusedSources, List.filterMap_append]

theorem fusedSources_mkKept (w : VRec) : fusedSources [mkKept w] = [] := by
  simp [fusedSources, mkKept]

theorem fusedSources_mkFused (comb : Vec → Vec → Vec) (base w : VRec) :
    fusedSources [mkFused comb base w] = [base.rid] := by
  simp [fusedSources, mkFused]

theorem getElem_eraseIdx_map_not_mem {α β : Type} (f : α → β) :
    ∀ (l : List α) (j : ℕ) (r : α),
      (l.map f).Nodup → l[j]? = some r → f r ∉ (l.eraseIdx j).map f := by
  intro l
  induction l with
  | nil => intro j r _ h; simp at h
  | cons a tl ih =>
    intro j r hnd h
    cases j with
    | zero =>
      rw [List.getElem?_cons_zero] at h
      obtain rfl : a = r := by simpa using h
      rw [List.eraseIdx_cons_zero]
      simp only [List.map_cons, List.nodup_cons] at hnd
      exact hnd.1
    | succ k =>
      rw [List.getElem?_cons_succ] at h
      rw [List.eraseIdx_cons_succ]
      simp only [List.map_cons, List.nodup_cons] at hnd
      simp only [List.map_cons, List.mem_cons]
      push_neg
      constructor
      · intro heq
        exact hnd.1 (heq ▸ List.mem_map_of_mem f (List.getElem?_mem h))
      · exact ih k r hnd.2 h

theorem fuseStep_consume_inv (sim : Vec → Vec → ℚ) (comb : Vec → Vec → Vec)
    (t : ℚ) (A0 : List VRec) (hA : (A0.map VRec.rid).Nodup)
    (st : FState) (w : VRec)
    (h1 : st.avail.Sublist A0)
    (h2 : (fusedSources st.produced).Nodup)
    (h3 : ∀ x ∈ fusedSources st.produced, x ∉ st.avail.map VRec.rid) :
    (fuseStep sim comb t st w).avail.Sublist A0 ∧
      (fusedSources (fuseStep sim comb t st w).produced).Nodup ∧
      ∀ x ∈ fusedSources (fuseStep sim comb t st w).produced,
        x ∉ (fuseStep sim comb t st w).avail.map VRec.rid := by
  have havnd : (st.avail.map VRec.rid).Nodup :=
    List.Nodup.sublist (h1.map VRec.rid) hA
  rcases hb : bestIdx sim w.emb st.avail with _ | ⟨j, base, s⟩
  · simp only [fuseStep, hb, fusedSources_append, fusedSources_mkKept,
      List.append_nil]
    exact ⟨h1, h2, h3⟩
  · have hget := (bestIdx_getElem sim w.emb st.avail j base s hb).1
    have hbase : base ∈ st.avail := List.getElem?_mem hget
    by_cases hts : t ≤ s
    · simp only [fuseStep, hb, if_pos hts, fusedSources_append,
        fusedSources_mkFused]
      refine ⟨(List.eraseIdx_sublist _ _).trans h1, ?_, ?_⟩
      · rw [List.nodup_append]
        refine ⟨h2, List.nodup_singleton _, ?_⟩
        intro x hx hx1
        rw [List.mem_singleton] at hx1
        subst hx1
        exact h3 _ hx (List.mem_map_of_mem VRec.rid hbase)
      · intro x hx
        rw [List.mem_append] at hx
        rcases hx with hx | hx
        · intro hmem
          exact h3 x hx
            (((List.eraseIdx_sublist _ _).map VRec.rid).subset hmem)
        · rw [List.mem_singleton] at hx
          subst hx
          exact getElem_eraseIdx_map_not_mem VRec.rid st.avail j base havnd hget
    · simp only [fuseStep, hb, if_neg hts, fusedSources_append,
        fusedSources_mkKept, List.append_nil]
      exact ⟨h1, h2, h3⟩

theorem foldFuse_consume_inv (sim : Vec → Vec → ℚ) (comb : Vec → Vec → Vec)
    (t : ℚ) (A0 : List VRec) (hA : (A0.map VRec.rid).Nodup) (B : List VRec) :
    ∀ st : FState,
      st.avail.Sublist A0 →
      (fusedSources st.produced).Nodup →
      (∀ x ∈ fusedSources st.produced, x ∉ st.avail.map VRec.rid) →
      (B.foldl (fuseStep sim comb t) st).avail.Sublist A0 ∧
        (fusedSources (B.foldl (fuseStep sim comb t) st).produced).Nodup ∧
        ∀ x ∈ fusedSources (B.foldl (fuseStep sim comb t) st).produced,
          x ∉ (B.foldl (fuseStep sim comb t) st).avail.map VRec.rid := by
  induction B with
  | nil => intro st h1 h2 h3; exact ⟨h1, h2, h3⟩
  | cons w B ih =>
    intro st h1 h2 h3
    rw [List.foldl_cons]
    obtain ⟨g1, g2, g3⟩ := fuseStep_consume_inv sim comb t A0 hA st w h1 h2 h3
    exact ih _ g1 g2 g3

/-- C2: after a single fusion pass over namespaces A and B with distinct base
ids and no pre-existing fusedFrom pairs in A, no base record id appears in
more than one `fusedFrom` pair of the result: each base record is consumed by
at most one incoming vector. -/
theorem fuse_consume_once (sim : Vec → Vec → ℚ) (comb : Vec → Vec → Vec)
    (t : ℚ) (A B : List VRec) (hA : (A.map VRec.rid).Nodup)
    (hff : ∀ r ∈ A, r.fusedFrom = none) :
    (fusedSources (fuse sim comb t A B)).Nodup := by
  unfold fuse
  obtain ⟨g1, g2, _⟩ :=
    foldFuse_consume_inv sim comb t A hA B ⟨A, []⟩ (List.Sublist.refl A)
      (by simp [fusedSources]) (by simp [fusedSources])
  rw [fusedSources_append]
  have hav : fusedSources (B.foldl (fuseStep sim comb t) ⟨A, []⟩).avail = [] := by
    rw [fusedSources, List.filterMap_eq_nil_iff]
    intro r hr
    rw [hff r (g1.subset hr)]
    rfl
  rw [hav]
  simpa using g2

/-- Witness for C2 at concrete inputs: one base record, two incoming records
of which the first fuses with the base. -/
theorem fuse_consume_once_witness :
    (([recA].map VRec.rid).Nodup ∧ ∀ r ∈ [recA], r.fusedFrom = none) ∧
      (fusedSources (fuse simTest combTest 1 [recA] [recB, recC])).Nodup :=
  ⟨⟨by decide, by decide⟩,
    fuse_consume_once simTest combTest 1 [recA] [recB, recC]
      (by decide) (by decide)⟩

/-! ## Determinism of the fusion pass -/

/-- C3: fusion is deterministic — running the pass twice on the same two
namespace snapshots with the same threshold (B's vectors processed in the
same fixed order, as the fold does) yields identical fused sets: the same
record ids, the same kind assignments and the same fusedFrom pairs. -/
theorem fuse_deterministic (sim : Vec → Vec → ℚ) (comb : Vec → Vec → Vec)
    (t1 t2 : ℚ) (A1 A2 B1 B2 : List VRec)
    (hA : A1 = A2) (hB : B1 = B2) (ht : t1 = t2) :
    (fuse sim comb t1 A1 B1).map VRec.rid = (fuse sim comb t2 A2 B2).map VRec.rid ∧
      (fuse sim comb t1 A1 B1).map VRec.kind = (fuse sim comb t2 A2 B2).map VRec.kind ∧
      (fuse sim comb t1 A1 B1).map VRec.fusedFrom
        = (fuse sim comb t2 A2 B2).map VRec.fusedFrom := by
  subst hA
  subst hB
  subst ht
  exact ⟨rfl, rfl, rfl⟩

/-- Witness for C3 at concrete inputs. -/
theorem fuse_deterministic_witness :
    (([recA] : List VRec) = [recA] ∧ ([recB] : List VRec) = [recB] ∧ (1 : ℚ) = 1) ∧
      (fuse simTest combTest 1 [recA] [recB]).map VRec.rid
        = (fuse simTest combTest 1 [recA] [recB]).map VRec.rid :=
  ⟨⟨rfl, rfl, rfl⟩,
    (fuse_deterministic simTest combTest 1 1 [recA] [recA] [recB] [recB]
      rfl rfl rfl).1⟩

/-! ## The merge orchestrator -/

/-- C5: if fusion fails at any step, the merge does not abort and no
truncated fused set is written: the orchestrator upserts the plain union of
the two namespaces verbatim (size exactly `|A|+|B|`), marks the merge record
`fallback-union`, emits a warning event with a human-readable reason, and
still reaches Complete. -/
theorem merge_fallback_union (ids : List String) (tid : String)
    (A B : List VRec) (e : FuseErr) (sTry : Except Unit String)
    (hvalid : ¬ ids.dedup.length < 2) :
    (runMerge ids tid A B (Except.error e) sTry true).finalState = MState.complete ∧
      (runMerge ids tid A B (Except.error e) sTry true).record.map
        MergeRecord.fusionOutcome = some ("fallback-union") ∧
      (runMerge ids tid A B (Except.error e) sTry true).fusedNamespace = A ++ B ∧
      (runMerge ids tid A B (Except.error e) sTry true).fusedNamespace.length
        = A.length + B.length ∧
      (∃ msg, MEvent.warning msg ∈ (runMerge ids tid A B (Except.error e) sTry true).events) ∧
      MEvent.complete tid ∈ (runMerge ids tid A B (Except.error e) sTry true).events := by
  unfold runMerge
  rw [if_neg hvalid]
  refine ⟨rfl, rfl, rfl, by simp, ?_, ?_⟩
  · refine ⟨"Smart fusion failed - fell back to simple union merge. Reason: "
      ++ e.describe, ?_⟩
    cases sTry <;> simp
  · cases sTry <;> simp

/-- Witness for C5 at concrete inputs. -/
theorem merge_fallback_union_witness :
    (¬ (["x", "y"] : List String).dedup.length < 2) ∧
      ((runMerge ["x", "y"] ("t1") [recA] [recC]
          (Except.error FuseErr.indexUnavailable) (Except.error ()) true).finalState
            = MState.complete ∧
        (runMerge ["x", "y"] ("t1") [recA] [recC]
          (Except.error FuseErr.indexUnavailable) (Except.error ()) true).record.map
            MergeRecord.fusionOutcome = some ("fallback-union") ∧
        (runMerge ["x", "y"] ("t1") [recA] [recC]
          (Except.error FuseErr.indexUnavailable) (Except.error ()) true).fusedNamespace
            = [recA] ++ [recC] ∧
        (runMerge ["x", "y"] ("t1") [recA] [recC]
          (Except.error FuseErr.indexUnavailable) (Except.error ()) true).fusedNamespace.length
            = [recA].length + [recC].length ∧
        (∃ msg, MEvent.warning msg ∈ (runMerge ["x", "y"] ("t1") [recA] [recC]
          (Except.error FuseErr.indexUnavailable) (Except.error ()) true).events) ∧
        MEvent.complete ("t1") ∈ (runMerge ["x", "y"] ("t1") [recA] [recC]
          (Except.error FuseErr.indexUnavailable) (Except.error ()) true).events) :=
  ⟨by decide,
    merge_fallback_union ["x", "y"] ("t1") [recA] [recC]
      FuseErr.indexUnavailable (Except.error ()) (by decide)⟩

/-- C6: a merge request with fewer than 2 distinct source ids fails
immediately: exactly one event is emitted and it is an `InvalidMergeRequest`
error, no target conversation and no merge record are created, nothing is
written to any namespace, and the run ends in the failed state. -/
theorem merge_invalid_request (ids : List String) (tid : String)
    (A B : List VRec) (fTry : Except FuseErr (List VRec))
    (sTry : Except Unit String) (rOk : Bool)
    (hlt : ids.dedup.length < 2) :
    runMerge ids tid A B fTry sTry rOk =
      { events := [MEvent.errorEvent ("InvalidMergeRequest")],
        conversation := none,
        record := none,
        fusedNamespace := [],
        finalState := MState.failed } := by
  unfold runMerge
  rw [if_pos hlt]

/-- Witness for C6: the single-id request of the spec scenario. -/
theorem merge_invalid_request_witness :
    (["x"] : List String).dedup.length < 2 ∧
      runMerge ["x"] ("t1") [recA] [recC] (Except.ok []) (Except.error ()) true =
        { events := [MEvent.errorEvent ("InvalidMergeRequest")],
          conversation := none,
          record := none,
          fusedNamespace := [],
          finalState := MState.failed } :=
  ⟨by decide,
    merge_invalid_request ["x"] ("t1") [recA] [recC] (Except.ok [])
      (Except.error ()) true (by decide)⟩

/-- C7: after every successful merge the target conversation's transcript
contains exactly one turn — the generated introduction — and no turn copied
from any source conversation (every transcript turn carries
`copiedFrom = none`). -/
theorem merge_transcript_single_intro (ids : List String) (tid : String)
    (A B : List VRec) (fTry : Except FuseErr (List VRec))
    (sTry : Except Unit String)
    (hvalid : ¬ ids.dedup.length < 2) :
    ∃ conv : Conversation,
      (runMerge ids tid A B fTry sTry true).conversation = some conv ∧
        conv.transcript = [introTurn sTry] ∧
        conv.transcript.length = 1 ∧
        ∀ u ∈ conv.transcript, u.copiedFrom = none := by
  unfold runMerge
  rw [if_neg hvalid]
  refine ⟨_, rfl, rfl, rfl, ?_⟩
  intro u hu
  rw [List.mem_singleton] at hu
  subst hu
  rfl

/-- Witness for C7 at concrete inputs. -/
theorem merge_transcript_single_intro_witness :
    (¬ (["x", "y"] : List String).dedup.length < 2) ∧
      ∃ conv : Conversation,
        (runMerge ["x", "y"] ("t1") [recA] [recC] (Except.ok [recA])
            (Except.ok ("hello")) true).conversation = some conv ∧
          conv.transcript = [introTurn (Except.ok ("hello"))] ∧
          conv.transcript.length = 1 ∧
          ∀ u ∈ conv.transcript, u.copiedFrom = none :=
  ⟨by decide,
    merge_transcript_single_intro ["x", "y"] ("t1") [recA] [recC]
      (Except.ok [recA]) (Except.ok ("hello")) (by decide)⟩

/-! ## The RAG context builder -/

/-- C8: `buildContext` mutates no state (it hands the namespace back
unchanged), and on a namespace containing zero vectors it returns the empty
string rather than raising an error. -/
theorem buildContext_empty_and_pure (embed : String → Vec)
    (sim : Vec → Vec → ℚ) (ns : List VRec) (q : String) (topK budget : ℕ) :
    (buildContext embed sim ns q topK budget).2 = ns ∧
      (ns = [] → (buildContext embed sim ns q topK budget).1 = "") := by
  constructor
  · rfl
  · intro h
    subst h
    simp [buildContext, sortHits, fitBudget, nlSep, String.intercalate]

/-- Witness for C8 at concrete inputs: the empty namespace. -/
theorem buildContext_empty_and_pure_witness :
    (buildContext (fun _ => ([] : Vec)) simTest [] ("q") 8 100).1 = "" ∧
      (buildContext (fun _ => ([] : Vec)) simTest [] ("q") 8 100).2 = [] :=
  ⟨(buildContext_empty_and_pure (fun _ => ([] : Vec)) simTest [] ("q") 8 100).2 rfl,
    (buildContext_empty_and_pure (fun _ => ([] : Vec)) simTest [] ("q") 8 100).1⟩

/-! ## The merge-selection toggle -/

theorem filter_ne_of_not_mem (c : String) (sel : List String)
    (hc : c ∉ sel) : sel.filter (fun x => decide (x ≠ c)) = sel := by
  rw [List.filter_eq_self]
  intro a ha
  simp only [decide_eq_true_eq]
  intro h
  subst h
  exact hc ha

theorem nodup_filter_ne_eq_erase (c : String) :
    ∀ sel : List String, sel.Nodup →
      sel.filter (fun x => decide (x ≠ c)) = sel.erase c := by
  intro sel
  induction sel with
  | nil => intro _; rfl
  | cons a tl ih =>
    intro h
    rw [List.nodup_cons] at h
    by_cases hac : a = c
    · subst hac
      rw [List.erase_cons_head, List.filter_cons, if_neg (by simp)]
      exact filter_ne_of_not_mem a tl h.1
    · rw [List.erase_cons_tail (by simpa using hac), List.filter_cons,
        if_pos (by simpa using hac), ih h.2]

/-- C10 counterexample: toggling the same id twice in a row is not an
involution on the selection list.  Starting from the empty selection, select
`c` then `a` (state `[c, a]`); toggling `c` twice then yields `[a, c]`, not
the prior value `[c, a]`. -/
theorem toggleMergeSelect_not_involutive :
    toggleMergeSelect ("c")
        (toggleMergeSelect ("c")
          (toggleMergeSelect ("a") (toggleMergeSelect ("c") [])))
      ≠ toggleMergeSelect ("a") (toggleMergeSelect ("c") []) := by
  decide

/-- C10 (amended): the merge-selection list never contains duplicate ids —
every call of `toggleMergeSelect` on a duplicate-free selection yields a
duplicate-free selection — and toggling the same id twice in a row restores
the prior selection exactly when the id was not selected, and in general
restores it up to order (as a set: the toggled id moves to the end). -/
theorem toggleMergeSelect_amended (c : String) (sel : List String)
    (h : sel.Nodup) :
    (toggleMergeSelect c sel).Nodup ∧
      (c ∉ sel → toggleMergeSelect c (toggleMergeSelect c sel) = sel) ∧
      (toggleMergeSelect c (toggleMergeSelect c sel)).Perm sel := by
  by_cases hc : c ∈ sel
  · have h1 : toggleMergeSelect c sel = sel.filter (fun x => decide (x ≠ c)) := by
      rw [toggleMergeSelect, if_pos hc]
    have hcnotin : c ∉ sel.filter (fun x => decide (x ≠ c)) := by
      intro hmem
      rcases List.mem_filter.mp hmem with ⟨_, hdec⟩
      simp at hdec
    have h2 : toggleMergeSelect c (toggleMergeSelect c sel)
        = sel.filter (fun x => decide (x ≠ c)) ++ [c] := by
      rw [h1, toggleMergeSelect, if_neg hcnotin]
    refine ⟨?_, ?_, ?_⟩
    · rw [h1]
      exact List.Nodup.filter _ h
    · intro hns
      exact absurd hc hns
    · rw [h2, nodup_filter_ne_eq_erase c sel h]
      exact ((List.perm_append_singleton c _).trans
        ((List.perm_cons_erase hc).symm))
  · have h1 : toggleMergeSelect c sel = sel ++ [c] := by
      rw [toggleMergeSelect, if_neg hc]
    have hcin : c ∈ sel ++ [c] := by simp
    have h2 : toggleMergeSelect c (toggleMergeSelect c sel) = sel := by
      rw [h1, toggleMergeSelect, if_pos hcin, List.filter_append]
      rw [filter_ne_of_not_mem c sel hc]
      simp
    refine ⟨?_, fun _ => h2, ?_⟩
    · rw [h1, List.nodup_append]
      refine ⟨h, List.nodup_singleton _, ?_⟩
      intro x hx hx1
      rw [List.mem_singleton] at hx1
      subst hx1
      exact hc hx
    · rw [h2]

/-- Witness for the amended C10 at concrete inputs. -/
theorem toggleMergeSelect_amended_witness :
    (["y"] : List String).Nodup ∧
      ((toggleMergeSelect ("x") ["y"]).Nodup ∧
        (("x" : String) ∉ (["y"] : List String) →
          toggleMergeSelect ("x") (toggleMergeSelect ("x") ["y"]) = ["y"]) ∧
        (toggleMergeSelect ("x") (toggleMergeSelect ("x") ["y"])).Perm ["y"]) :=
  ⟨by decide, toggleMergeSelect_amended ("x") ["y"] (by decide)⟩

/-! ## The SSE stream reader -/

theorem splitNl_ne_nil : ∀ s : List Char, splitNl s ≠ [] := by
  intro s
  cases s with
  | nil => simp [splitNl]
  | cons c rest =>
    simp only [splitNl]
    split <;> simp

theorem mem_splitNl_no_newline :
    ∀ (s : List Char) (l : List Char), l ∈ splitNl s → '\n' ∉ l := by
  intro s
  induction s with
  | nil =>
    intro l hl
    simp only [splitNl, List.mem_singleton] at hl
    subst hl
    simp
  | cons c rest ih =>
    intro l hl
    simp only [splitNl] at hl
    by_cases hc : c = '\n'
    · rw [if_pos hc] at hl
      rcases List.mem_cons.mp hl with h | h
      · subst h; simp
      · exact ih l h
    · rw [if_neg hc] at hl
      obtain ⟨x, xs, hx⟩ := List.exists_cons_of_ne_nil (splitNl_ne_nil rest)
      rw [hx] at hl
      simp only [List.headD_cons, List.tail_cons] at hl
      rcases List.mem_cons.mp hl with h | h
      · subst h
        intro hmem
        rcases List.mem_cons.mp hmem with h2 | h2
        · exact hc h2.symm
        · exact ih x (by rw [hx]; exact List.mem_cons_self x xs) h2
      · exact ih l (by rw [hx]; exact List.mem_cons_of_mem x h)

theorem splitNl_no_newline : ∀ s : List Char, '\n' ∉ s → splitNl s = [s] := by
  intro s
  induction s with
  | nil => intro _; rfl
  | cons c rest ih =>
    intro h
    have hc : ¬ c = '\n' := by
      intro hh
      subst hh
      exact h (List.mem_cons_self _ _)
    have hr : '\n' ∉ rest := fun hh => h (List.mem_cons_of_mem _ hh)
    simp only [splitNl]
    rw [if_neg hc, ih hr]
    simp

theorem getLastD_mem {α : Type} :
    ∀ (l : List α) (d : α), l ≠ [] → l.getLastD d ∈ l := by
  intro l
  induction l with
  | nil => intro d h; exact absurd rfl h
  | cons a tl ih =>
    intro d _
    cases tl with
    | nil => simp
    | cons b tl2 =>
      rw [List.getLastD_cons]
      exact List.mem_cons_of_mem a (ih a (by simp))

theorem splitNl_append (a : List Char) :
    ∀ b : List Char,
      splitNl (a ++ b) = (splitNl a).dropLast
        ++ ((splitNl a).getLastD [] ++ (splitNl b).headD []) :: (splitNl b).tail := by
  induction a with
  | nil =>
    intro b
    obtain ⟨y, ys, hy⟩ := List.exists_cons_of_ne_nil (splitNl_ne_nil b)
    rw [List.nil_append, hy]
    simp [splitNl]
  | cons c a' ih =>
    intro b
    obtain ⟨x, xs, hx⟩ := List.exists_cons_of_ne_nil (splitNl_ne_nil a')
    by_cases hc : c = '\n'
    · rw [List.cons_append]
      simp only [splitNl]
      rw [if_pos hc, if_pos hc, ih b, hx]
      cases xs with
      | nil =>
        simp [List.getLastD_cons]
      | cons x2 xs' =>
        simp [List.dropLast_cons₂, List.getLastD_cons, List.cons_append]
    · rw [List.cons_append]
      simp only [splitNl]
      rw [if_neg hc, if_neg hc, ih b, hx]
      obtain ⟨y, ys, hy⟩ := List.exists_cons_of_ne_nil (splitNl_ne_nil b)
      rw [hy]
      cases xs with
      | nil =>
        simp [List.getLastD_cons]
      | cons x2 xs' =>
        simp only [List.dropLast_cons₂, List.getLastD_cons, List.cons_append,
          List.headD_cons, List.tail_cons]

theorem foldFeed_spec {α : Type} (parse : List Char → Option α) :
    ∀ (chunks : List (List Char)) (acc : List α) (buf : List Char),
      '\n' ∉ buf →
      (chunks.foldl (feedChunk parse) (acc, buf)).1
        = acc ++ (splitNl (buf ++ joinAll chunks)).dropLast.filterMap
            (parseLine parse) := by
  intro chunks
  induction chunks with
  | nil =>
    intro acc buf hbuf
    simp only [List.foldl_nil, joinAll, List.append_nil]
    rw [splitNl_no_newline buf hbuf]
    simp
  | cons ch rest ih =>
    intro acc buf hbuf
    rw [List.foldl_cons]
    have hne := splitNl_ne_nil (buf ++ ch)
    have hlast : '\n' ∉ (splitNl (buf ++ ch)).getLastD [] :=
      mem_splitNl_no_newline (buf ++ ch) _ (getLastD_mem _ _ hne)
    show (rest.foldl (feedChunk parse)
        (acc ++ (splitNl (buf ++ ch)).dropLast.filterMap (parseLine parse),
          (splitNl (buf ++ ch)).getLastD [])).1 = _
    rw [ih _ _ hlast]
    simp only [joinAll]
    rw [← List.append_assoc buf ch (joinAll rest)]
    rw [splitNl_append (buf ++ ch) (joinAll rest)]
    rw [List.dropLast_append_of_ne_nil _ (by simp)]
    rw [List.filterMap_append]
    rw [splitNl_append ((splitNl (buf ++ ch)).getLastD []) (joinAll rest)]
    rw [splitNl_no_newline _ hlast]
    simp [List.append_assoc]

/-- C9: the SSE stream reader `streamFetch` raises an error iff the HTTP
response status is not ok, and then before yielding anything; once the
status is ok it never raises on stream content: the yielded payloads are
exactly the successfully parsed `data: ` payloads of the complete lines of
the stream, in stream order — every line not starting with `data: ` and
every `data: ` line whose payload fails to parse is silently skipped, and
the chunk boundaries of the transport are invisible in the result. -/
theorem streamFetch_spec {α : Type} (parse : List Char → Option α)
    (resp : HttpResponse) :
    (resp.ok = false →
        streamFetch parse resp
          = Except.error ("HTTP " ++ toString resp.status ++ ": "
              ++ resp.statusText)) ∧
      (resp.ok = true →
        streamFetch parse resp
          = Except.ok ((splitNl (joinAll resp.body)).dropLast.filterMap
              (parseLine parse))) := by
  constructor
  · intro h
    rw [streamFetch, if_neg (by simp [h])]
  · intro h
    rw [streamFetch, if_pos (by simp [h])]
    rw [foldFeed_spec parse resp.body [] [] (by simp)]
    simp

/-- Witness for C9 at concrete inputs: an ok response whose SSE lines are
split across chunk boundaries; the two well-formed `data: ` lines are
yielded, the non-data line and the trailing unterminated line are not. -/
theorem streamFetch_spec_witness :
    respTest.ok = true ∧ streamFetch parseTest respTest = Except.ok [1, 1] :=
  ⟨by decide,
    ((streamFetch_spec parseTest respTest).2 (by decide)).trans (by rfl)⟩

/-! ## Threshold monotonicity of the fusion pass -/

theorem bestIdx_none_iff (sim : Vec → Vec → ℚ) (w : Vec) :
    ∀ l : List VRec, bestIdx sim w l = none ↔ l = [] := by
  intro l
  cases l with
  | nil => simp [bestIdx]
  | cons a rest =>
    constructor
    · intro h
      exact absurd h (bestIdx_ne_none sim w a rest)
    · intro h
      cases h

theorem bestIdx_some_of_ne_nil (sim : Vec → Vec → ℚ) (w : Vec)
    (l : List VRec) (h : l ≠ []) :
    ∃ j r s, bestIdx sim w l = some (j, r, s) := by
  rcases hb : bestIdx sim w l with _ | ⟨j, r, s⟩
  · exact absurd ((bestIdx_none_iff sim w l).mp hb) h
  · exact ⟨j, r, s, rfl⟩

theorem bestIdx_val_le_of_sublist (sim : Vec → Vec → ℚ) (w : Vec)
    {l1 l2 : List VRec} (hsub : l1.Sublist l2)
    {j1 j2 : ℕ} {r1 r2 : VRec} {s1 s2 : ℚ}
    (h1 : bestIdx sim w l1 = some (j1, r1, s1))
    (h2 : bestIdx sim w l2 = some (j2, r2, s2)) : s1 ≤ s2 := by
  have hm : r1 ∈ l1 := List.getElem?_mem (bestIdx_getElem sim w l1 j1 r1 s1 h1).1
  rw [(bestIdx_getElem sim w l1 j1 r1 s1 h1).2]
  exact bestIdx_max sim w l2 j2 r2 s2 h2 r1 (hsub.subset hm)

theorem bestIdx_eraseIdx_eq_eraseP (sim : Vec → Vec → ℚ) (w : Vec) :
    ∀ (l : List VRec) (j : ℕ) (r : VRec) (s : ℚ),
      bestIdx sim w l = some (j, r, s) →
      l.eraseIdx j = l.eraseP (fun x => decide (s ≤ sim w x.emb)) := by
  intro l
  induction l with
  | nil => intro j r s h; simp [bestIdx] at h
  | cons a rest ih =>
    intro j r s h
    simp only [bestIdx] at h
    rcases hrec : bestIdx sim w rest with _ | ⟨j', r', s'⟩ <;> rw [hrec] at h
    · have hrest : rest = [] := (bestIdx_none_iff sim w rest).mp hrec
      subst hrest
      simp only [Option.some.injEq, Prod.mk.injEq] at h
      obtain ⟨hj, hr, hs⟩ := h
      subst hj
      subst hs
      simp [List.eraseP_cons]
    · simp only [] at h
      by_cases hlt : sim w a.emb < s'
      · rw [if_pos hlt] at h
        simp only [Option.some.injEq, Prod.mk.injEq] at h
        obtain ⟨hj, hr, hs⟩ := h
        subst hj
        subst hs
        rw [List.eraseIdx_cons_succ, List.eraseP_cons]
        have hpa : decide (s' ≤ sim w a.emb) = false := by
          simp only [decide_eq_false_iff_not]
          exact not_le.mpr hlt
        rw [hpa]
        simp only [cond_false]
        rw [ih j' r' s' hrec]
      · rw [if_neg hlt] at h
        simp only [Option.some.injEq, Prod.mk.injEq] at h
        obtain ⟨hj, hr, hs⟩ := h
        subst hj
        subst hs
        rw [List.eraseIdx_cons_zero, List.eraseP_cons]
        have hpa : decide (sim w a.emb ≤ sim w a.emb) = true := by simp
        rw [hpa]
        simp only [cond_true]

theorem sublist_eraseP {p : VRec → Bool} :
    ∀ {l1 l2 : List VRec}, l1.Sublist l2 →
      (l1.eraseP p).Sublist (l2.eraseP p) := by
  intro l1 l2 h
  induction h with
  | slnil => exact List.Sublist.refl _
  | cons a h ih =>
    rw [List.eraseP_cons]
    cases hpa : p a
    · simp only [cond_false]
      exact ih.cons a
    · simp only [cond_true]
      exact (List.eraseP_sublist _).trans h
  | cons₂ a h ih =>
    rw [List.eraseP_cons, List.eraseP_cons]
    cases hpa : p a
    · simp only [cond_false]
      exact ih.cons₂ a
    · simp only [cond_true]
      exact h

theorem sublist_eraseIdx_of_not_mem :
    ∀ {l1 l2 : List VRec}, l1.Sublist l2 →
      ∀ (j : ℕ) (r : VRec), l2[j]? = some r → r ∉ l1 →
        l1.Sublist (l2.eraseIdx j) := by
  intro l1 l2 h
  induction h with
  | slnil => intro j r _ _; exact List.nil_sublist _
  | cons a h ih =>
    intro j r hget hnot
    cases j with
    | zero =>
      rw [List.eraseIdx_cons_zero]
      exact h
    | succ k =>
      rw [List.eraseIdx_cons_succ]
      rw [List.getElem?_cons_succ] at hget
      exact (ih k r hget hnot).cons a
  | cons₂ a h ih =>
    intro j r hget hnot
    cases j with
    | zero =>
      rw [List.getElem?_cons_zero] at hget
      obtain rfl : a = r := by simpa using hget
      exact absurd (List.mem_cons_self _ _) hnot
    | succ k =>
      rw [List.eraseIdx_cons_succ]
      rw [List.getElem?_cons_succ] at hget
      exact (ih k r hget (fun hm => hnot (List.mem_cons_of_mem a hm))).cons₂ a

theorem fuseStep_avail_mono (sim : Vec → Vec → ℚ) (comb : Vec → Vec → Vec)
    (t1 t2 : ℚ) (h12 : t1 ≤ t2) (st1 st2 : FState) (w : VRec)
    (hsub : st1.avail.Sublist st2.avail) :
    (fuseStep sim comb t1 st1 w).avail.Sublist
      (fuseStep sim comb t2 st2 w).avail := by
  rcases hb1 : bestIdx sim w.emb st1.avail with _ | ⟨j1, r1, s1⟩
  · have hnil : st1.avail = [] := (bestIdx_none_iff sim w.emb st1.avail).mp hb1
    have he : (fuseStep sim comb t1 st1 w).avail = st1.avail := by
      simp [fuseStep, hb1]
    rw [he, hnil]
    exact List.nil_sublist _
  · have hne2 : st2.avail ≠ [] := by
      intro h2nil
      rw [h2nil, List.sublist_nil] at hsub
      rw [hsub] at hb1
      simp [bestIdx] at hb1
    obtain ⟨j2, r2, s2, hb2⟩ := bestIdx_some_of_ne_nil sim w.emb st2.avail hne2
    have hs12 : s1 ≤ s2 := bestIdx_val_le_of_sublist sim w.emb hsub hb1 hb2
    have e1t : (fuseStep sim comb t1 st1 w).avail
        = if t1 ≤ s1 then st1.avail.eraseIdx j1 else st1.avail := by
      simp only [fuseStep, hb1]
      split <;> rfl
    have e2t : (fuseStep sim comb t2 st2 w).avail
        = if t2 ≤ s2 then st2.avail.eraseIdx j2 else st2.avail := by
      simp only [fuseStep, hb2]
      split <;> rfl
    rw [e1t, e2t]
    by_cases h1 : t1 ≤ s1 <;> by_cases h2 : t2 ≤ s2
    · rw [if_pos h1, if_pos h2]
      by_cases hmem : r2 ∈ st1.avail
      · have hs2le : s2 ≤ s1 := by
          rw [(bestIdx_getElem sim w.emb st2.avail j2 r2 s2 hb2).2]
          exact bestIdx_max sim w.emb st1.avail j1 r1 s1 hb1 r2 hmem
        have heq : s2 = s1 := le_antisymm hs2le hs12
        subst heq
        rw [bestIdx_eraseIdx_eq_eraseP sim w.emb st1.avail j1 r1 s2 hb1,
          bestIdx_eraseIdx_eq_eraseP sim w.emb st2.avail j2 r2 s2 hb2]
        exact sublist_eraseP hsub
      · exact (List.eraseIdx_sublist _ _).trans
          (sublist_eraseIdx_of_not_mem hsub j2 r2
            (bestIdx_getElem sim w.emb st2.avail j2 r2 s2 hb2).1 hmem)
    · rw [if_pos h1, if_neg h2]
      exact (List.eraseIdx_sublist _ _).trans hsub
    · rw [if_neg h1, if_pos h2]
      have hmem : r2 ∉ st1.avail := by
        intro hm
        have hle : s2 ≤ s1 := by
          rw [(bestIdx_getElem sim w.emb st2.avail j2 r2 s2 hb2).2]
          exact bestIdx_max sim w.emb st1.avail j1 r1 s1 hb1 r2 hm
        exact h1 (le_trans h12 (le_trans h2 hle))
      exact sublist_eraseIdx_of_not_mem hsub j2 r2
        (bestIdx_getElem sim w.emb st2.avail j2 r2 s2 hb2).1 hmem
    · rw [if_neg h1, if_neg h2]
      exact hsub

theorem foldFuse_avail_mono (sim : Vec → Vec → ℚ) (comb : Vec → Vec → Vec)
    (t1 t2 : ℚ) (h12 : t1 ≤ t2) (B : List VRec) :
    ∀ st1 st2 : FState, st1.avail.Sublist st2.avail →
      (B.foldl (fuseStep sim comb t1) st1).avail.Sublist
        (B.foldl (fuseStep sim comb t2) st2).avail := by
  induction B with
  | nil => intro st1 st2 h; exact h
  | cons w B ih =>
    intro st1 st2 h
    rw [List.foldl_cons, List.foldl_cons]
    exact ih _ _ (fuseStep_avail_mono sim comb t1 t2 h12 st1 st2 w h)

/-- C4: for a fixed pair of namespaces processed in a fixed order, the fused
set size is monotone in the threshold: a lower threshold never yields a
larger fused set. -/
theorem fuse_threshold_monotone (sim : Vec → Vec → ℚ) (comb : Vec → Vec → Vec)
    (t1 t2 : ℚ) (A B : List VRec) (h : t1 ≤ t2) :
    (fuse sim comb t1 A B).length ≤ (fuse sim comb t2 A B).length := by
  unfold fuse
  simp only [List.length_append]
  have hmono := (foldFuse_avail_mono sim comb t1 t2 h B ⟨A, []⟩ ⟨A, []⟩
    (List.Sublist.refl A)).length_le
  have hp1 := foldFuse_produced_length sim comb t1 B ⟨A, []⟩
  have hp2 := foldFuse_produced_length sim comb t2 B ⟨A, []⟩
  simp only [] at hmono hp1 hp2
  omega

/-- Witness for C4 at concrete inputs: thresholds 0 and 1 on a dissimilar
pair (the low threshold fuses, the high one appends). -/
theorem fuse_threshold_monotone_witness :
    (0 : ℚ) ≤ 1 ∧ (fuse simTest combTest 0 [recA] [recC]).length
      ≤ (fuse simTest combTest 1 [recA] [recC]).length :=
  ⟨by decide, fuse_threshold_monotone simTest combTest 0 1 [recA] [recC]
    (by decide)⟩
